import Mathlib

/-!
Verification of the RepoRead repository ingestion-and-cache subsystem and its
frontend tree/search components.

The frontend (TypeScript, `src/`) is embedded directly from the source files
(`src/types.ts`, `src/App.tsx`, `src/components/FileTree.tsx`,
`src/components/ContentSearch.tsx`, `src/components/RepoList.tsx`).
The Rust backend (`src-tauri/src/repo.rs`, `src-tauri/src/lib.rs`) is not part
of the available sources; the backend components (reference resolver, archive
extractor, tree builder, cache store, file reader, update orchestrator) are
modelled from the specification and marked `Modelled from the spec:` on each
definition.
-/

namespace RepoRead

/-- Embedded from `src/types.ts` (interface `FileNode`): `{name, path, is_dir,
size?, children?}`.  `size` and `children` are optional fields, hence `Option`. -/
inductive FileNode : Type where
  | mk (name : String) (path : String) (is_dir : Bool) (size : Option Nat)
      (children : Option (List FileNode)) : FileNode

def FileNode.name : FileNode → String
  | .mk n _ _ _ _ => n

def FileNode.path : FileNode → String
  | .mk _ p _ _ _ => p

def FileNode.is_dir : FileNode → Bool
  | .mk _ _ d _ _ => d

def FileNode.size : FileNode → Option Nat
  | .mk _ _ _ s _ => s

def FileNode.children : FileNode → Option (List FileNode)
  | .mk _ _ _ _ c => c

/-- Contiguous-sublist test on character lists: `subOccurs hay needle` is true
iff `needle` occurs inside `hay`. -/
def subOccurs (hay needle : List Char) : Bool :=
  match hay with
  | [] => needle.isEmpty
  | _ :: t => needle.isPrefixOf hay || subOccurs t needle

/-- JavaScript `String.prototype.includes` (substring test), as used by
`node.name.toLowerCase().includes(query)` in `FileTree.tsx`. -/
def jsIncludes (s sub : String) : Bool :=
  subOccurs s.toList sub.toList

/-- JavaScript `String.prototype.toLowerCase` restricted to its ASCII behaviour,
as a character-wise map. -/
def jsToLower (s : String) : String :=
  String.mk (s.toList.map Char.toLower)

mutual

/-- Embedded from `src/components/FileTree.tsx` lines 123-141
(`filterTreeNode`): a file node survives iff its lowercased name contains the
query; a directory survives iff its name matches or some child survives, and
its surviving children are kept (in order) in the returned copy. -/
def filterTreeNode (node : FileNode) (query : String) : Option FileNode :=
  match node with
  | .mk name path is_dir size children =>
    let m := jsIncludes (jsToLower name) query
    if is_dir = false then
      if m then some (.mk name path is_dir size children) else none
    else
      match children with
      | some cs =>
        let filtered := filterForest cs query
        if m || filtered.length > 0 then some (.mk name path is_dir size (some filtered))
        else none
      | none =>
        -- `node.children || []` yields the empty list; no child can survive
        if m then some (.mk name path is_dir size (some [])) else none

/-- The `children.map(filterTreeNode).filter(Boolean)` part of
`filterTreeNode`, written as explicit recursion over the children list. -/
def filterForest (nodes : List FileNode) (query : String) : List FileNode :=
  match nodes with
  | [] => []
  | c :: cs =>
    match filterTreeNode c query with
    | some c' => c' :: filterForest cs query
    | none => filterForest cs query

end

/-- The match test of `filterTreeNode`:
`node.name.toLowerCase().includes(query)`. -/
def nameMatches (n : FileNode) (q : String) : Bool :=
  jsIncludes (jsToLower n.name) q

mutual

/-- The strict descendants of a node: every node reachable through `children`
fields below it (not the node itself). -/
def nodeDescs : FileNode → List FileNode
  | .mk _ _ _ _ (some l) => forestNodes l
  | .mk _ _ _ _ none => []

/-- All nodes of a forest: each root together with its strict descendants. -/
def forestNodes : List FileNode → List FileNode
  | [] => []
  | c :: cs => c :: (nodeDescs c ++ forestNodes cs)

end

mutual

/-- Well-formedness of a `FileNode`: only directory nodes carry a nonempty
`children` list, recursively. -/
def wfNode : FileNode → Bool
  | .mk _ _ _ _ none => true
  | .mk _ _ is_dir _ (some l) => (is_dir || l.isEmpty) && wfForest l

/-- Well-formedness of every node of a forest. -/
def wfForest : List FileNode → Bool
  | [] => true
  | c :: cs => wfNode c && wfForest cs

end

@[simp] theorem FileNode.name_mk (n p : String) (d : Bool) (s : Option Nat)
    (c : Option (List FileNode)) : (FileNode.mk n p d s c).name = n := rfl

@[simp] theorem FileNode.path_mk (n p : String) (d : Bool) (s : Option Nat)
    (c : Option (List FileNode)) : (FileNode.mk n p d s c).path = p := rfl

@[simp] theorem FileNode.is_dir_mk (n p : String) (d : Bool) (s : Option Nat)
    (c : Option (List FileNode)) : (FileNode.mk n p d s c).is_dir = d := rfl

@[simp] theorem FileNode.size_mk (n p : String) (d : Bool) (s : Option Nat)
    (c : Option (List FileNode)) : (FileNode.mk n p d s c).size = s := rfl

@[simp] theorem FileNode.children_mk (n p : String) (d : Bool) (s : Option Nat)
    (c : Option (List FileNode)) : (FileNode.mk n p d s c).children = c := rfl

theorem wfNode_not_dir_descs (c : FileNode) (hwf : wfNode c = true)
    (hd : c.is_dir = false) : nodeDescs c = [] := by
  match c with
  | .mk n p d s none => simp [nodeDescs]
  | .mk n p d s (some l) =>
    simp only [FileNode.is_dir_mk] at hd
    subst hd
    simp only [wfNode, Bool.false_or, Bool.and_eq_true, List.isEmpty_iff] at hwf
    simp [nodeDescs, hwf.1, forestNodes]

theorem wfNode_dir_forest (nm p : String) (s : Option Nat) (cs : List FileNode)
    (hwf : wfNode (.mk nm p true s (some cs)) = true) : wfForest cs = true := by
  simp only [wfNode, Bool.true_or, Bool.true_and] at hwf
  exact hwf

mutual

theorem filterTreeNode_isSome_iff (n : FileNode) (q : String) (hwf : wfNode n = true) :
    (filterTreeNode n q).isSome = true ↔
      (nameMatches n q = true ∨
        (n.is_dir = true ∧ (nodeDescs n).any (fun d => nameMatches d q) = true)) := by
  match n with
  | .mk name path is_dir size children =>
    match is_dir with
    | false =>
      by_cases hm : jsIncludes (jsToLower name) q = true <;>
        simp [filterTreeNode, nameMatches, hm]
    | true =>
      match children with
      | none =>
        by_cases hm : jsIncludes (jsToLower name) q = true <;>
          simp [filterTreeNode, nameMatches, nodeDescs, hm]
      | some cs =>
        have hf : wfForest cs = true := wfNode_dir_forest name path size cs hwf
        have ih := filterForest_ne_iff cs q hf
        by_cases hm : jsIncludes (jsToLower name) q = true
        · simp [filterTreeNode, nameMatches, nodeDescs, hm]
        · simp only [nameMatches, FileNode.name_mk] at ih ⊢
          by_cases hne : filterForest cs q = []
          · have hany : ¬ (((forestNodes cs).any fun d => jsIncludes (jsToLower d.name) q)
                = true) := fun h => (ih.mpr h) hne
            simp [filterTreeNode, nodeDescs, hm, hne, hany]
          · have hlen : 0 < (filterForest cs q).length := List.length_pos.mpr hne
            have hany := ih.mp hne
            simp [filterTreeNode, nodeDescs, hm, hlen, hany]

theorem filterForest_ne_iff (l : List FileNode) (q : String) (hwf : wfForest l = true) :
    (filterForest l q ≠ []) ↔ (forestNodes l).any (fun d => nameMatches d q) = true := by
  match l with
  | [] => simp [filterForest, forestNodes]
  | c :: cs =>
    simp only [wfForest, Bool.and_eq_true] at hwf
    have ihc := filterTreeNode_isSome_iff c q hwf.1
    have ihf := filterForest_ne_iff cs q hwf.2
    simp only [forestNodes, List.any_cons, List.any_append, Bool.or_eq_true]
    constructor
    · intro h
      simp only [filterForest] at h
      rcases hc : filterTreeNode c q with _ | c'
      · rw [hc] at h
        right; right
        exact ihf.mp h
      · have : (filterTreeNode c q).isSome = true := by simp [hc]
        rcases ihc.mp this with hm | hd
        · exact Or.inl hm
        · right; left
          exact hd.2
    · intro h
      simp only [filterForest]
      rcases h with hm | hdesc | hrest
      · have : (filterTreeNode c q).isSome = true := ihc.mpr (Or.inl hm)
        rcases hc : filterTreeNode c q with _ | c'
        · rw [hc] at this; simp at this
        · simp
      · by_cases hdir : c.is_dir = true
        · have : (filterTreeNode c q).isSome = true := ihc.mpr (Or.inr ⟨hdir, hdesc⟩)
          rcases hc : filterTreeNode c q with _ | c'
          · rw [hc] at this; simp at this
          · simp
        · have hdf : c.is_dir = false := by
            cases hcd : c.is_dir
            · rfl
            · exact absurd hcd hdir
          rw [wfNode_not_dir_descs c hwf.1 hdf] at hdesc
          simp at hdesc
      · have : filterForest cs q ≠ [] := ihf.mpr hrest
        rcases hc : filterTreeNode c q with _ | c'
        · exact this
        · simp

end

theorem filterTreeNode_fields (n : FileNode) (q : String) (n' : FileNode)
    (h : filterTreeNode n q = some n') :
    n'.path = n.path ∧ n'.name = n.name ∧ n'.is_dir = n.is_dir ∧ n'.size = n.size := by
  match n with
  | .mk name path d size children =>
    match d, children with
    | false, ch =>
      by_cases hm : jsIncludes (jsToLower name) q = true
      · simp only [filterTreeNode, if_pos rfl, hm, if_true, Option.some.injEq] at h
        subst h
        simp
      · simp [filterTreeNode, hm] at h
    | true, none =>
      by_cases hm : jsIncludes (jsToLower name) q = true
      · simp only [filterTreeNode] at h
        rw [if_neg (by simp)] at h
        rw [if_pos hm] at h
        rw [Option.some.injEq] at h
        subst h
        simp
      · simp [filterTreeNode, hm] at h
    | true, some cs =>
      simp only [filterTreeNode] at h
      rw [if_neg (by simp)] at h
      split at h
      · rw [Option.some.injEq] at h
        subst h
        simp
      · exact absurd h (by simp)

theorem filterTreeNode_file_unchanged (n : FileNode) (q : String) (n' : FileNode)
    (hd : n.is_dir = false) (h : filterTreeNode n q = some n') : n' = n := by
  match n with
  | .mk name path d size children =>
    simp only [FileNode.is_dir_mk] at hd
    subst hd
    by_cases hm : jsIncludes (jsToLower name) q = true
    · simp only [filterTreeNode, if_pos rfl, hm, if_true, Option.some.injEq] at h
      exact h.symm
    · simp [filterTreeNode, hm] at h

theorem filterTreeNode_dir_children (nm p : String) (s : Option Nat)
    (cs : List FileNode) (q : String) (n' : FileNode)
    (h : filterTreeNode (.mk nm p true s (some cs)) q = some n') :
    n'.children = some (filterForest cs q) := by
  simp only [filterTreeNode] at h
  rw [if_neg (by simp)] at h
  split at h
  · rw [Option.some.injEq] at h
    subst h
    simp
  · exact absurd h (by simp)

theorem filterForest_paths_sublist (l : List FileNode) (q : String) :
    List.Sublist ((filterForest l q).map FileNode.path) (l.map FileNode.path) := by
  induction l with
  | nil => simp [filterForest]
  | cons c cs ih =>
    simp only [filterForest]
    rcases hc : filterTreeNode c q with _ | c'
    · exact ih.cons c.path
    · simp only [List.map_cons]
      rw [(filterTreeNode_fields c q c' hc).1]
      exact ih.cons₂ c.path

/-- The malformed node refuting claim C10 as literally stated: a directory
whose only child is a *file* node that itself carries a matching-named child
in its `children` field. -/
def c10BadNode : FileNode :=
  .mk "d" "d" true none
    (some [.mk "f" "d/f" false (some 1)
      (some [.mk "match" "d/f/match" false (some 1) none])])

/-- C10 counterexample: `c10BadNode` is a directory with a descendant named
`"match"`, yet `filterTreeNode c10BadNode "match"` is `none` — the code never
looks below a non-directory node, so the claim's descendant condition fails
as stated on arbitrary `FileNode` values. -/
theorem filterTreeNode_counterexample :
    (filterTreeNode c10BadNode "match").isSome = false ∧
    c10BadNode.is_dir = true ∧
    ((nodeDescs c10BadNode).any fun d => nameMatches d "match") = true := by
  decide

/-- C10 (amended): for every *well-formed* `FileNode` (only directories carry
children) and non-empty lowercased query, `filterTreeNode` returns a non-null
node exactly when the node's lowercased name contains the query or the node is
a directory with a descendant whose lowercased name contains the query;
retained file nodes are returned unchanged, and a retained directory keeps its
surviving children in the original relative order. -/
theorem filterTreeNode_spec (n : FileNode) (q : String) (hq : q ≠ "")
    (hlow : jsToLower q = q) (hwf : wfNode n = true) :
    ((filterTreeNode n q).isSome = true ↔
      (nameMatches n q = true ∨
        (n.is_dir = true ∧ ((nodeDescs n).any fun d => nameMatches d q) = true))) ∧
    (∀ n', filterTreeNode n q = some n' → n.is_dir = false → n' = n) ∧
    (∀ n' cs cs', filterTreeNode n q = some n' → n.children = some cs →
      n'.children = some cs' → List.Sublist (cs'.map FileNode.path) (cs.map FileNode.path)) := by
  refine ⟨filterTreeNode_isSome_iff n q hwf, ?_, ?_⟩
  · intro n' h hd
    exact filterTreeNode_file_unchanged n q n' hd h
  · intro n' cs cs' h hcs hcs'
    match n with
    | .mk nm p d s children =>
      simp only [FileNode.children_mk] at hcs
      subst hcs
      match d with
      | false =>
        have := filterTreeNode_file_unchanged (.mk nm p false s (some cs)) q n' rfl h
        subst this
        simp only [FileNode.children_mk, Option.some.injEq] at hcs'
        subst hcs'
        exact List.Sublist.refl _
      | true =>
        have hch := filterTreeNode_dir_children nm p s cs q n' h
        rw [hcs'] at hch
        rw [Option.some.injEq] at hch
        subst hch
        exact filterForest_paths_sublist cs q

/-- Witness for `filterTreeNode_spec` at a concrete well-formed tree and
query. -/
theorem filterTreeNode_spec_witness :
    (filterTreeNode
      (.mk "src" "src" true none (some [.mk "main.rs" "src/main.rs" false (some 10) none]))
      "main").isSome = true := by
  have h := filterTreeNode_spec
    (.mk "src" "src" true none (some [.mk "main.rs" "src/main.rs" false (some 10) none]))
    "main" (by decide) (by decide) (by decide)
  exact h.1.mpr (Or.inr (by decide))

/-! ### In-repository content search (`src/components/ContentSearch.tsx`) -/

/-- Embedded from `src/types.ts` (interface `FileContent`). -/
structure FileContent where
  content : String
  truncated : Bool
  total_lines : Option Nat
  language : String
  is_binary : Bool
deriving Repr, DecidableEq

/-- Embedded from `src/components/ContentSearch.tsx` (interface `FlatFile`). -/
structure FlatFile where
  path : String
  name : String
deriving Repr, DecidableEq

/-- Embedded from `src/components/ContentSearch.tsx` (interface
`SearchResult`). -/
structure SearchResult where
  path : String
  name : String
  line : Nat
  lineText : String
  matchIndex : Int
  truncated : Bool
deriving Repr, DecidableEq

mutual

/-- Embedded from `src/components/ContentSearch.tsx` lines 27-37
(`flattenTree`): collects every non-directory node, descending through every
`children` field. -/
def flattenTree : FileNode → List FlatFile
  | .mk name path is_dir _ children =>
    (if is_dir = false then [⟨path, name⟩] else []) ++
      (match children with
       | some l => flattenForest l
       | none => [])

/-- Flattening of a list of sibling nodes, in order. -/
def flattenForest : List FileNode → List FlatFile
  | [] => []
  | c :: cs => flattenTree c ++ flattenForest cs

end

/-- JavaScript `String.prototype.trim` (strip whitespace at both ends). -/
def jsTrim (s : String) : String :=
  String.mk (((s.toList.dropWhile Char.isWhitespace).reverse.dropWhile
    Char.isWhitespace).reverse)

/-- JavaScript `String.prototype.trimEnd`. -/
def jsTrimEnd (s : String) : String :=
  String.mk ((s.toList.reverse.dropWhile Char.isWhitespace).reverse)

/-- The index (from `i`) of the first occurrence of `needle` in `hay`, or
`none`. -/
def idxOfFrom : List Char → List Char → Nat → Option Nat
  | hay, needle, i =>
    match hay with
    | [] => if needle.isEmpty then some i else none
    | _ :: t => if needle.isPrefixOf hay then some i else idxOfFrom t needle (i + 1)

/-- JavaScript `String.prototype.indexOf` (first index of a substring, `-1`
when absent). -/
def jsIndexOf (s sub : String) : Int :=
  match idxOfFrom s.toList sub.toList 0 with
  | some n => (n : Int)
  | none => -1

/-- JavaScript `String.prototype.split("\n")` on character lists. -/
def splitLinesL : List Char → List (List Char)
  | [] => [[]]
  | c :: cs =>
    if c = '\n' then [] :: splitLinesL cs
    else
      match splitLinesL cs with
      | l :: rest => (c :: l) :: rest
      | [] => [[c]]

/-- JavaScript `content.split("\n")`: the lines of a string. -/
def jsSplitNewline (s : String) : List String :=
  (splitLinesL s.toList).map String.mk

/-- Embedded from `src/components/ContentSearch.tsx` line 108
(`MAX_RESULTS = 200`). -/
def MAX_RESULTS : Nat := 200

/-- Embedded from `src/components/ContentSearch.tsx` line 109
(`MAX_FILES = 1500`). -/
def MAX_FILES : Nat := 1500

/-- Embedded from `src/components/ContentSearch.tsx` lines 81-84
(`truncateLine`): preview lines are clipped to 220 characters. -/
def truncateLine (text : String) : String :=
  if text.length ≤ 220 then text
  else jsTrimEnd (String.mk (text.toList.take 220)) ++ "…"

/-- Embedded from `src/components/ContentSearch.tsx` lines 224-243: the inner
line loop of `runSearch`.  `i` is the 0-based index of the head of `ls` in the
file; matching lines are appended until `MAX_RESULTS` is reached. -/
def scanLines (p nm : String) (tr : Bool) (ql : String) :
    List String → Nat → List SearchResult → List SearchResult
  | [], _, found => found
  | l :: ls, i, found =>
    let mi := jsIndexOf (jsToLower l) ql
    if mi ≠ -1 then
      let preview := truncateLine l
      let r : SearchResult :=
        ⟨p, nm, i + 1, preview, if mi ≥ (preview.length : Int) then -1 else mi, tr⟩
      let found2 := found ++ [r]
      if found2.length ≥ MAX_RESULTS then found2
      else scanLines p nm tr ql ls (i + 1) found2
    else scanLines p nm tr ql ls (i + 1) found

/-- Embedded from `src/components/ContentSearch.tsx` lines 198-254: the file
loop of `runSearch`.  `contents` models `readFileContent` (`none` for a read
error, which the `catch` block ignores); each processed file increments the
scanned counter exactly once; binary files are skipped. -/
def searchFiles (contents : String → Option FileContent) (ql : String) :
    List FlatFile → List SearchResult → Nat → List SearchResult × Nat
  | [], found, scanned => (found, scanned)
  | f :: fs, found, scanned =>
    if found.length ≥ MAX_RESULTS then (found, scanned)
    else
      match contents f.path with
      | none => searchFiles contents ql fs found (scanned + 1)
      | some c =>
        if c.is_binary then searchFiles contents ql fs found (scanned + 1)
        else
          let found2 := scanLines f.path f.name c.truncated ql (jsSplitNewline c.content) 0 found
          searchFiles contents ql fs found2 (scanned + 1)

/-- Embedded from `src/components/ContentSearch.tsx` lines 186-261: a complete
search run over `allFiles.slice(0, MAX_FILES)` with the trimmed, lowercased
query. -/
def runContentSearch (contents : String → Option FileContent) (query : String)
    (tree : FileNode) : List SearchResult × Nat :=
  let ql := jsToLower (jsTrim query)
  searchFiles contents ql ((flattenTree tree).take MAX_FILES) [] 0

/-- A search result is sound: its path resolves to a non-binary file whose
`r.line`-th line (1-based) contains the lowercased query. -/
def goodResult (contents : String → Option FileContent) (ql : String)
    (r : SearchResult) : Prop :=
  ∃ c, contents r.path = some c ∧ c.is_binary = false ∧
    1 ≤ r.line ∧ r.line - 1 < (jsSplitNewline c.content).length ∧
    jsIncludes (jsToLower ((jsSplitNewline c.content).getD (r.line - 1) "")) ql = true

theorem idxOfFrom_none_iff (needle : List Char) :
    ∀ (hay : List Char) (i : Nat),
      idxOfFrom hay needle i = none ↔ subOccurs hay needle = false := by
  intro hay
  induction hay with
  | nil =>
    intro i
    by_cases h : needle.isEmpty <;> simp [idxOfFrom, subOccurs, h]
  | cons c t ih =>
    intro i
    by_cases h : needle.isPrefixOf (c :: t) = true
    · simp [idxOfFrom, subOccurs, h]
    · simp only [Bool.not_eq_true] at h
      simp [idxOfFrom, subOccurs, h, ih (i + 1)]

theorem jsIndexOf_ne_iff (s sub : String) :
    jsIndexOf s sub ≠ -1 ↔ jsIncludes s sub = true := by
  unfold jsIndexOf jsIncludes
  rcases h : idxOfFrom s.toList sub.toList 0 with _ | n
  · rw [(idxOfFrom_none_iff sub.toList s.toList 0).mp h]
    simp
  · have : subOccurs s.toList sub.toList = true := by
      cases hocc : subOccurs s.toList sub.toList
      · rw [← idxOfFrom_none_iff sub.toList s.toList 0] at hocc
        rw [h] at hocc
        cases hocc
      · rfl
    simp only [this, iff_true]
    omega

theorem scanLines_mem (p nm : String) (tr : Bool) (ql : String) :
    ∀ (ls : List String) (i : Nat) (found : List SearchResult) (r : SearchResult),
      r ∈ scanLines p nm tr ql ls i found →
      r ∈ found ∨ (r.path = p ∧ ∃ j, j < ls.length ∧ r.line = i + j + 1 ∧
        jsIndexOf (jsToLower (ls.getD j "")) ql ≠ -1) := by
  intro ls
  induction ls with
  | nil =>
    intro i found r h
    exact Or.inl h
  | cons l ls' ih =>
    intro i found r h
    simp only [scanLines] at h
    by_cases hmi : jsIndexOf (jsToLower l) ql ≠ -1
    · rw [if_pos hmi] at h
      generalize hmx : (if jsIndexOf (jsToLower l) ql ≥ ((truncateLine l).length : Int)
        then (-1 : Int) else jsIndexOf (jsToLower l) ql) = mx at h
      have hnew : ∀ r', r' ∈ found ++
          [(⟨p, nm, i + 1, truncateLine l, mx, tr⟩ : SearchResult)] →
          r' ∈ found ∨ (r'.path = p ∧ ∃ j, j < (l :: ls').length ∧
            r'.line = i + j + 1 ∧ jsIndexOf (jsToLower ((l :: ls').getD j "")) ql ≠ -1) := by
        intro r' hr'
        rcases List.mem_append.mp hr' with hl | hr
        · exact Or.inl hl
        · right
          simp only [List.mem_singleton] at hr
          subst hr
          exact ⟨rfl, 0, by simp, by simp, by simpa using hmi⟩
      split at h
      · exact hnew r h
      · rcases ih (i + 1) _ r h with hf | ⟨hp, j, hj, hline, hmatch⟩
        · exact hnew r hf
        · right
          refine ⟨hp, j + 1, by simpa using hj, by omega, ?_⟩
          simpa using hmatch
    · rw [if_neg hmi] at h
      rcases ih (i + 1) found r h with hf | ⟨hp, j, hj, hline, hmatch⟩
      · exact Or.inl hf
      · right
        refine ⟨hp, j + 1, by simpa using hj, by omega, ?_⟩
        simpa using hmatch

theorem scanLines_length (p nm : String) (tr : Bool) (ql : String) :
    ∀ (ls : List String) (i : Nat) (found : List SearchResult),
      found.length < MAX_RESULTS →
      (scanLines p nm tr ql ls i found).length ≤ MAX_RESULTS := by
  intro ls
  induction ls with
  | nil =>
    intro i found h
    simp only [scanLines]
    omega
  | cons l ls' ih =>
    intro i found h
    simp only [scanLines]
    by_cases hmi : jsIndexOf (jsToLower l) ql ≠ -1
    · rw [if_pos hmi]
      generalize (if jsIndexOf (jsToLower l) ql ≥ ((truncateLine l).length : Int)
        then (-1 : Int) else jsIndexOf (jsToLower l) ql) = mx
      split
      · simp only [List.length_append, List.length_singleton]
        omega
      · rename_i hlt
        refine ih (i + 1) _ ?_
        simp only [List.length_append, List.length_singleton] at hlt ⊢
        omega
    · rw [if_neg hmi]
      exact ih (i + 1) found h

theorem searchFiles_mem_good (contents : String → Option FileContent) (ql : String) :
    ∀ (fs : List FlatFile) (found : List SearchResult) (scanned : Nat)
      (r : SearchResult), r ∈ (searchFiles contents ql fs found scanned).1 →
      r ∈ found ∨ (goodResult contents ql r ∧ r.path ∈ fs.map FlatFile.path) := by
  intro fs
  induction fs with
  | nil =>
    intro found scanned r h
    exact Or.inl h
  | cons f fs' ih =>
    intro found scanned r h
    simp only [searchFiles] at h
    split at h
    · exact Or.inl h
    · rcases hc : contents f.path with _ | c
      · simp only [hc] at h
        rcases ih _ _ r h with hf | ⟨hg, hp⟩
        · exact Or.inl hf
        · exact Or.inr ⟨hg, by simp [hp]⟩
      · simp only [hc] at h
        by_cases hb : c.is_binary = true
        · rw [if_pos hb] at h
          rcases ih _ _ r h with hf | ⟨hg, hp⟩
          · exact Or.inl hf
          · exact Or.inr ⟨hg, by simp [hp]⟩
        · rw [if_neg hb] at h
          rcases ih _ _ r h with hf | ⟨hg, hp⟩
          · rcases scanLines_mem f.path f.name c.truncated ql
              (jsSplitNewline c.content) 0 found r hf with hfound | ⟨hpath, j, hj, hline, hmatch⟩
            · exact Or.inl hfound
            · right
              constructor
              · refine ⟨c, by rw [hpath]; exact hc, by simpa using hb, by omega, ?_, ?_⟩
                · omega
                · have hj' : r.line - 1 = j := by omega
                  rw [hj']
                  exact (jsIndexOf_ne_iff _ _).mp hmatch
              · simp [hpath]
          · exact Or.inr ⟨hg, by simp [hp]⟩

theorem searchFiles_length (contents : String → Option FileContent) (ql : String) :
    ∀ (fs : List FlatFile) (found : List SearchResult) (scanned : Nat),
      found.length ≤ MAX_RESULTS →
      (searchFiles contents ql fs found scanned).1.length ≤ MAX_RESULTS := by
  intro fs
  induction fs with
  | nil =>
    intro found scanned h
    simpa [searchFiles] using h
  | cons f fs' ih =>
    intro found scanned h
    simp only [searchFiles]
    split
    · exact h
    · rename_i hlt
      have hfound : found.length < MAX_RESULTS := by omega
      rcases hc : contents f.path with _ | c
      · exact ih found _ h
      · by_cases hb : c.is_binary = true
        · simpa [hb] using ih found (scanned + 1) h
        · simpa [hb] using ih _ (scanned + 1) (scanLines_length f.path f.name c.truncated ql
            (jsSplitNewline c.content) 0 found hfound)

theorem searchFiles_scanned (contents : String → Option FileContent) (ql : String) :
    ∀ (fs : List FlatFile) (found : List SearchResult) (scanned : Nat),
      (searchFiles contents ql fs found scanned).2 ≤ scanned + fs.length := by
  intro fs
  induction fs with
  | nil =>
    intro found scanned
    simp [searchFiles]
  | cons f fs' ih =>
    intro found scanned
    simp only [searchFiles]
    split
    · simp
    · rcases hc : contents f.path with _ | c
      · have := ih found (scanned + 1)
        simpa [List.length_cons] using Nat.le_trans this (by omega)
      · by_cases hb : c.is_binary = true
        · have := ih found (scanned + 1)
          simpa [hb, List.length_cons] using Nat.le_trans this (by omega)
        · have := ih (scanLines f.path f.name c.truncated ql
            (jsSplitNewline c.content) 0 found) (scanned + 1)
          simpa [hb, List.length_cons] using Nat.le_trans this (by omega)

/-- C9: for every repository tree and every query whose trimmed length is at
least 2, the in-repository content search scans at most `MAX_FILES = 1500`
files and returns at most `MAX_RESULTS = 200` results; binary files produce no
results, and every returned result carries a 1-based line number of a scanned
file whose line contains the (trimmed, lowercased) query. -/
theorem contentSearch_spec (contents : String → Option FileContent)
    (tree : FileNode) (query : String) (hq : 2 ≤ (jsTrim query).length) :
    (runContentSearch contents query tree).2 ≤ MAX_FILES ∧
    (runContentSearch contents query tree).1.length ≤ MAX_RESULTS ∧
    (∀ r ∈ (runContentSearch contents query tree).1,
      r.path ∈ ((flattenTree tree).take MAX_FILES).map FlatFile.path ∧
      goodResult contents (jsToLower (jsTrim query)) r) := by
  refine ⟨?_, ?_, ?_⟩
  · have := searchFiles_scanned contents (jsToLower (jsTrim query))
      ((flattenTree tree).take MAX_FILES) [] 0
    have hlen : ((flattenTree tree).take MAX_FILES).length ≤ MAX_FILES :=
      List.length_take_le _ _
    calc (runContentSearch contents query tree).2
        ≤ 0 + ((flattenTree tree).take MAX_FILES).length := this
      _ ≤ MAX_FILES := by omega
  · exact searchFiles_length contents (jsToLower (jsTrim query))
      ((flattenTree tree).take MAX_FILES) [] 0 (by simp [MAX_RESULTS])
  · intro r hr
    rcases searchFiles_mem_good contents (jsToLower (jsTrim query))
      ((flattenTree tree).take MAX_FILES) [] 0 r hr with hf | ⟨hg, hp⟩
    · cases hf
    · exact ⟨hp, hg⟩

/-- Witness for `contentSearch_spec` on a one-file repository and the query
`"hi"`. -/
theorem contentSearch_spec_witness :
    (runContentSearch
      (fun _ => some ⟨"say hi\nbye\n", false, some 3, "plaintext", false⟩)
      "hi"
      (.mk "r" "" true none (some [.mk "a.txt" "a.txt" false (some 11) none]))).1.length
      ≤ MAX_RESULTS :=
  (contentSearch_spec
    (fun _ => some ⟨"say hi\nbye\n", false, some 3, "plaintext", false⟩)
    (.mk "r" "" true none (some [.mk "a.txt" "a.txt" false (some 11) none]))
    "hi" (by decide)).2.1

/-! ### The backend: error taxonomy, cache store, extractor, reader, pipeline.

The Rust backend (`src-tauri/src/repo.rs`) is not among the available
sources; everything in this section is modelled from the specification
(sections 3-4 and 6-7 of `spec.md`), with the frontend IPC surface of
`src/api.ts` fixing the operation names. -/

/-- Modelled from the spec: the error taxonomy of section 7. -/
inductive RepoError where
  | InvalidReference
  | NotFound
  | RateLimited
  | UpstreamUnavailable
  | ExtractionFailed
  | CacheIOError
  | NotCached
  | FileNotFound
deriving Repr, DecidableEq

/-- Embedded from `src/types.ts` (interface `RepoInfo`: key, owner, repo,
branch, imported_at, url) together with `src/components/RepoList.tsx` line 120
(`repo.last_opened_at || repo.imported_at`), which reads an optional
`last_opened_at` field off the record: the field is therefore `Option` and may
be absent. -/
structure RepoInfo where
  key : String
  owner : String
  repo : String
  branch : String
  imported_at : String
  last_opened_at : Option String
  url : String
deriving Repr, DecidableEq

/-- Embedded from `src/components/RepoList.tsx` line 120: the timestamp shown
for a repository is `repo.last_opened_at || repo.imported_at` (JavaScript
falsy test: an absent or empty `last_opened_at` falls back to
`imported_at`). -/
def repoDisplayTime (r : RepoInfo) : String :=
  match r.last_opened_at with
  | some t => if t.isEmpty then r.imported_at else t
  | none => r.imported_at

/-- Modelled from the spec: one entry of the downloaded branch snapshot
archive. -/
structure ArchiveEntry where
  path : String
  data : String
deriving Repr, DecidableEq

/-- Modelled from the spec: the downloaded snapshot archive. -/
def Archive : Type := List ArchiveEntry

/-- Splitting a character list at a separator character (general form of
line/component splitting). -/
def splitOnChar (sep : Char) : List Char → List (List Char)
  | [] => [[]]
  | c :: cs =>
    if c = sep then [] :: splitOnChar sep cs
    else
      match splitOnChar sep cs with
      | l :: rest => (c :: l) :: rest
      | [] => [[c]]

/-- Modelled from the spec: a path is absolute when it starts with `/`. -/
def isAbsolutePath (p : String) : Bool :=
  match p.toList with
  | '/' :: _ => true
  | _ => false

/-- Modelled from the spec: a path contains parent-directory traversal when
some slash-separated component is `..`. -/
def hasTraversal (p : String) : Bool :=
  (splitOnChar '/' p.toList).any (fun c => c = ['.', '.'])

/-- The slash-separated components of a relative path, with empty and `.`
components dropped. -/
def cleanComponents (p : String) : List (List Char) :=
  (splitOnChar '/' p.toList).filter (fun c => decide (c ≠ [] ∧ c ≠ ['.']))

/-- Path normalization: resolve `.` and `..` components against a stack;
`none` when the path would escape above its root. -/
def normalizeFrom : List (List Char) → List (List Char) → Option (List (List Char))
  | [], acc => some acc.reverse
  | c :: cs, acc =>
    if c = [] then normalizeFrom cs acc
    else if c = ['.'] then normalizeFrom cs acc
    else if c = ['.', '.'] then
      match acc with
      | [] => none
      | _ :: acc' => normalizeFrom cs acc'
    else normalizeFrom cs (c :: acc)

/-- Normalization of a component list from an empty stack. -/
def normalizeComps (l : List (List Char)) : Option (List (List Char)) :=
  normalizeFrom l []

/-- Modelled from the spec (section 4.3): a single archive entry is rejected
with `ExtractionFailed` when its path is absolute or contains parent-directory
traversal; otherwise its cleaned components are accepted. -/
def extractEntry (e : ArchiveEntry) : Except RepoError (List (List Char)) :=
  if isAbsolutePath e.path || hasTraversal e.path then .error .ExtractionFailed
  else .ok (cleanComponents e.path)

/-- Modelled from the spec (section 4.3): extraction of the whole archive into
a fresh sandbox.  The single wrapping top-level directory (`{repo}-{branch}`)
is stripped from every entry; any rejected entry fails the whole extraction;
the result is the list of written files as (relative components, data)
pairs. -/
def extractArchive : Archive → Except RepoError (List (List (List Char) × String))
  | [] => .ok []
  | e :: es =>
    match extractEntry e with
    | .error err => .error err
    | .ok comps =>
      match extractArchive es with
      | .error err => .error err
      | .ok rest =>
        match comps with
        | [] => .ok rest
        | [_] => .ok rest
        | _ :: tailComps => .ok ((tailComps, e.data) :: rest)

theorem extractEntry_clean (e : ArchiveEntry) (comps : List (List Char))
    (h : extractEntry e = .ok comps) :
    ∀ c ∈ comps, c ≠ [] ∧ c ≠ ['.'] ∧ c ≠ ['.', '.'] := by
  intro c hc
  unfold extractEntry at h
  split at h
  · cases h
  · rename_i hcond
    rw [Except.ok.injEq] at h
    subst h
    unfold cleanComponents at hc
    have hmem := List.mem_filter.mp hc
    have h12 := of_decide_eq_true hmem.2
    refine ⟨h12.1, h12.2, ?_⟩
    intro hdd
    have htrav : hasTraversal e.path = true := by
      unfold hasTraversal
      rw [List.any_eq_true]
      exact ⟨c, hmem.1, by simp [hdd]⟩
    simp [htrav] at hcond

theorem extractArchive_bad (ar : List ArchiveEntry) :
    ∀ e ∈ ar, (isAbsolutePath e.path || hasTraversal e.path) = true →
      extractArchive ar = .error .ExtractionFailed := by
  induction ar with
  | nil =>
    intro e he
    cases he
  | cons a es ih =>
    intro e he hbad
    rcases List.mem_cons.mp he with rfl | hes
    · simp only [extractArchive, extractEntry, hbad, if_true]
    · simp only [extractArchive]
      rcases ha : extractEntry a with err | comps
      · have : err = RepoError.ExtractionFailed := by
          unfold extractEntry at ha
          split at ha
          · rw [Except.error.injEq] at ha
            exact ha.symm
          · cases ha
        rw [this]
      · rw [ih e hes hbad]

theorem extractArchive_clean (ar : List ArchiveEntry)
    (writes : List (List (List Char) × String))
    (h : extractArchive ar = .ok writes) :
    ∀ w ∈ writes, ∀ c ∈ w.1, c ≠ [] ∧ c ≠ ['.'] ∧ c ≠ ['.', '.'] := by
  induction ar generalizing writes with
  | nil =>
    simp only [extractArchive, Except.ok.injEq] at h
    subst h
    intro w hw
    cases hw
  | cons a es ih =>
    simp only [extractArchive] at h
    rcases ha : extractEntry a with err | comps
    · rw [ha] at h
      cases h
    · rw [ha] at h
      rcases hrest : extractArchive es with err | rest
      · rw [hrest] at h
        cases h
      · rw [hrest] at h
        have hclean := extractEntry_clean a comps ha
        intro w hw c hc
        match comps, h with
        | [], h =>
          rw [Except.ok.injEq] at h
          subst h
          exact ih rest hrest w hw c hc
        | [x], h =>
          rw [Except.ok.injEq] at h
          subst h
          exact ih rest hrest w hw c hc
        | x :: y :: tail, h =>
          rw [Except.ok.injEq] at h
          subst h
          rcases List.mem_cons.mp hw with rfl | hw'
          · exact hclean c (List.mem_cons_of_mem x hc)
          · exact ih rest hrest w hw' c hc

theorem normalizeFrom_clean (l : List (List Char))
    (hl : ∀ c ∈ l, c ≠ [] ∧ c ≠ ['.'] ∧ c ≠ ['.', '.']) :
    ∀ acc, normalizeFrom l acc = some (acc.reverse ++ l) := by
  induction l with
  | nil =>
    intro acc
    simp [normalizeFrom]
  | cons c cs ih =>
    intro acc
    have hc := hl c (List.mem_cons_self c cs)
    have hcs : ∀ x ∈ cs, x ≠ [] ∧ x ≠ ['.'] ∧ x ≠ ['.', '.'] :=
      fun x hx => hl x (List.mem_cons_of_mem c hx)
    simp only [normalizeFrom, if_neg hc.1, if_neg hc.2.1, if_neg hc.2.2]
    rw [ih hcs (c :: acc)]
    simp

/-- C1 (spec-modelled): any archive entry whose path is absolute or contains
parent-directory traversal makes the whole extraction fail with
`ExtractionFailed`; and whenever extraction succeeds, every written path,
resolved against a clean sandbox root, normalizes to a strict descendant of
that root (the sandbox components are a prefix of the normalized result). -/
theorem extractArchive_spec (ar : List ArchiveEntry) (sandbox : List (List Char))
    (hsb : ∀ c ∈ sandbox, c ≠ [] ∧ c ≠ ['.'] ∧ c ≠ ['.', '.']) :
    (∀ e ∈ ar, (isAbsolutePath e.path || hasTraversal e.path) = true →
      extractArchive ar = .error .ExtractionFailed) ∧
    (∀ writes, extractArchive ar = .ok writes →
      ∀ w ∈ writes, normalizeComps (sandbox ++ w.1) = some (sandbox ++ w.1)) := by
  refine ⟨extractArchive_bad ar, ?_⟩
  intro writes h w hw
  have hclean := extractArchive_clean ar writes h w hw
  have hall : ∀ c ∈ sandbox ++ w.1, c ≠ [] ∧ c ≠ ['.'] ∧ c ≠ ['.', '.'] := by
    intro c hc
    rcases List.mem_append.mp hc with hc1 | hc2
    · exact hsb c hc1
    · exact hclean c hc2
  unfold normalizeComps
  rw [normalizeFrom_clean (sandbox ++ w.1) hall []]
  simp

/-- Witness for `extractArchive_spec`: the spec's own example entry
`../../evil` fails the extraction with `ExtractionFailed`. -/
theorem extractArchive_spec_witness :
    extractArchive [⟨"../../evil", "x"⟩] = .error .ExtractionFailed :=
  (extractArchive_spec [⟨"../../evil", "x"⟩] [['r'], ['k']] (by decide)).1
    ⟨"../../evil", "x"⟩ (by decide) (by decide)

/-! ### File reader (modelled from spec section 4.6) -/

/-- Modelled from the spec: the fixed byte ceiling of the reader's truncation
policy (3,000,000 bytes). -/
def MAX_TEXT_BYTES : Nat := 3000000

/-- Modelled from the spec: the fixed line-count ceiling of the reader's
truncation policy (50,000 lines). -/
def MAX_TEXT_LINES : Nat := 50000

/-- Modelled from the spec: binary detection samples a prefix of the file and
classifies it as binary when it contains null/control bytes. -/
def isBinaryContent (s : String) : Bool :=
  (s.toList.take 8000).any (fun c => c.toNat = 0)

/-- Modelled from the spec: the static extension-to-language lookup table. -/
def languageTable : List (String × String) :=
  [("rs", "rust"), ("ts", "typescript"), ("tsx", "typescript"),
   ("js", "javascript"), ("jsx", "javascript"), ("py", "python"),
   ("md", "markdown"), ("json", "json"), ("html", "html"), ("css", "css"),
   ("sh", "shell"), ("c", "c"), ("cpp", "cpp"), ("go", "go"),
   ("java", "java"), ("rb", "ruby"), ("swift", "swift"), ("kt", "kotlin")]

/-- The extension of a path: the part after the last dot. -/
def extOf (p : String) : String :=
  String.mk ((splitOnChar '.' p.toList).getLastD [])

/-- Modelled from the spec: extension lookup; unknown extensions classify as
plain text. -/
def languageFor (p : String) : String :=
  match languageTable.lookup (extOf p) with
  | some l => l
  | none => "plaintext"

/-- Joining lines with `\n`, the inverse of `splitLinesL`. -/
def joinLinesL : List (List Char) → List Char
  | [] => []
  | [l] => l
  | l :: ls => l ++ '\n' :: joinLinesL ls

/-- Modelled from the spec: greedy truncation.  A line is included while the
content so far (with a newline after every previous line) plus the line stays
within `MAX_TEXT_BYTES` and fewer than `MAX_TEXT_LINES` lines are taken;
truncation therefore always stops at the end of the last fully-included
line. -/
def takeLines : List (List Char) → Nat → Nat → List (List Char)
  | [], _, _ => []
  | l :: ls, used, cnt =>
    if cnt ≥ MAX_TEXT_LINES then []
    else if used + l.length ≤ MAX_TEXT_BYTES then
      l :: takeLines ls (used + l.length + 1) (cnt + 1)
    else []

/-- Modelled from the spec: the `FileContent` computed for one raw file.
Binary files carry no text; text files are split into lines, truncated by
`takeLines`, and re-joined, with `truncated` and `total_lines` reported. -/
def readFileData (p data : String) : FileContent :=
  if isBinaryContent data then
    ⟨"", false, none, languageFor p, true⟩
  else
    let ls := splitLinesL data.toList
    let taken := takeLines ls 0 0
    ⟨String.mk (joinLinesL taken), decide (taken.length < ls.length),
      some ls.length, languageFor p, false⟩

/-! ### Cache store (modelled from spec sections 3, 4.5 and 6) -/

/-- Modelled from the spec: one on-disk cache entry — metadata (info + tree)
plus the extracted repository files keyed by relative path. -/
structure CacheEntry where
  info : RepoInfo
  tree : FileNode
  files : List (String × String)

/-- Modelled from the spec: the cache maps repo keys to entries. -/
def Cache : Type := List (String × CacheEntry)

/-- Entry lookup by key. -/
def cacheLookup (c : Cache) (k : String) : Option CacheEntry :=
  match c with
  | [] => none
  | kv :: rest => if kv.1 = k then some kv.2 else cacheLookup rest k

/-- Modelled from the spec: `delete(key)` removes the entry's entire directory
tree. -/
def cacheDelete (c : Cache) (k : String) : Cache :=
  c.filter (fun kv => decide (kv.1 ≠ k))

/-- Modelled from the spec: `put(key, ...)` establishes or fully replaces an
entry atomically. -/
def cachePut (c : Cache) (k : String) (e : CacheEntry) : Cache :=
  (k, e) :: cacheDelete c k

/-- Modelled from the spec: `touch(key)` updates `last_opened_at` without
touching content. -/
def cacheTouch (c : Cache) (k t : String) : Cache :=
  c.map (fun kv =>
    if kv.1 = k then (kv.1, { kv.2 with info := { kv.2.info with last_opened_at := some t } })
    else kv)

/-- Modelled from the spec: `get_tree(key)`, failing with `NotCached` when the
key does not exist. -/
def getTree (c : Cache) (k : String) : Except RepoError FileNode :=
  match cacheLookup c k with
  | some e => .ok e.tree
  | none => .error .NotCached

/-- Modelled from the spec: `get_info(key)`, failing with `NotCached`. -/
def getInfo (c : Cache) (k : String) : Except RepoError RepoInfo :=
  match cacheLookup c k with
  | some e => .ok e.info
  | none => .error .NotCached

/-- Modelled from the spec: `read(key, path)`.  The resolved path is
re-validated against traversal (defense in depth, shared with extraction);
unknown keys fail with `NotCached`, absent paths with `FileNotFound`;
otherwise the `FileContent` is computed per read from the stored bytes. -/
def readFile (c : Cache) (k p : String) : Except RepoError FileContent :=
  if isAbsolutePath p || hasTraversal p then .error .FileNotFound
  else
    match cacheLookup c k with
    | none => .error .NotCached
    | some e =>
      match e.files.lookup p with
      | none => .error .FileNotFound
      | some data => .ok (readFileData p data)

theorem splitLinesL_ne_nil (l : List Char) : splitLinesL l ≠ [] := by
  match l with
  | [] => simp [splitLinesL]
  | c :: cs =>
    by_cases hc : c = '\n'
    · simp [splitLinesL, hc]
    · simp only [splitLinesL, if_neg hc]
      rcases h : splitLinesL cs with _ | ⟨l1, rest⟩
      · simp
      · simp

theorem joinLinesL_splitLinesL (l : List Char) : joinLinesL (splitLinesL l) = l := by
  induction l with
  | nil => simp [splitLinesL, joinLinesL]
  | cons c cs ih =>
    by_cases hc : c = '\n'
    · subst hc
      simp only [splitLinesL, if_pos rfl]
      rcases h : splitLinesL cs with _ | ⟨l1, rest⟩
      · exact absurd h (splitLinesL_ne_nil cs)
      · rw [h] at ih
        simp only [joinLinesL]
        rw [ih]
        simp
    · simp only [splitLinesL, if_neg hc]
      rcases h : splitLinesL cs with _ | ⟨l1, rest⟩
      · exact absurd h (splitLinesL_ne_nil cs)
      · rw [h] at ih
        rcases rest with _ | ⟨l2, rest'⟩
        · simp only [joinLinesL] at ih ⊢
          rw [ih]
        · simp only [joinLinesL] at ih ⊢
          rw [List.cons_append, ih]

theorem takeLines_is_prefix :
    ∀ (ls : List (List Char)) (u c : Nat), ∃ rest, takeLines ls u c ++ rest = ls := by
  intro ls
  induction ls with
  | nil =>
    intro u c
    exact ⟨[], rfl⟩
  | cons l ls' ih =>
    intro u c
    simp only [takeLines]
    by_cases h1 : c ≥ MAX_TEXT_LINES
    · exact ⟨l :: ls', by simp [h1]⟩
    · rw [if_neg h1]
      by_cases h2 : u + l.length ≤ MAX_TEXT_BYTES
      · rw [if_pos h2]
        obtain ⟨rest, hrest⟩ := ih (u + l.length + 1) (c + 1)
        exact ⟨rest, by simp [hrest]⟩
      · rw [if_neg h2]
        exact ⟨l :: ls', rfl⟩

theorem takeLines_bytes :
    ∀ (ls : List (List Char)) (u c : Nat),
      u + (joinLinesL (takeLines ls u c)).length ≤ MAX_TEXT_BYTES ∨
        takeLines ls u c = [] := by
  intro ls
  induction ls with
  | nil =>
    intro u c
    exact Or.inr rfl
  | cons l ls' ih =>
    intro u c
    by_cases h1 : c ≥ MAX_TEXT_LINES
    · right
      simp [takeLines, h1]
    · by_cases h2 : u + l.length ≤ MAX_TEXT_BYTES
      · left
        have hunf : takeLines (l :: ls') u c =
            l :: takeLines ls' (u + l.length + 1) (c + 1) := by
          simp [takeLines, h1, h2]
        rw [hunf]
        rcases hrec : takeLines ls' (u + l.length + 1) (c + 1) with _ | ⟨r1, rest⟩
        · simp only [joinLinesL]
          omega
        · rcases ih (u + l.length + 1) (c + 1) with hle | hnil
          · rw [hrec] at hle
            simp only [joinLinesL, List.length_append, List.length_cons] at hle ⊢
            omega
          · rw [hrec] at hnil
            cases hnil
      · right
        simp [takeLines, h1, h2]

theorem takeLines_count :
    ∀ (ls : List (List Char)) (u c : Nat),
      (takeLines ls u c).length ≤ MAX_TEXT_LINES - c := by
  intro ls
  induction ls with
  | nil =>
    intro u c
    simp [takeLines]
  | cons l ls' ih =>
    intro u c
    simp only [takeLines]
    by_cases h1 : c ≥ MAX_TEXT_LINES
    · simp [h1]
    · rw [if_neg h1]
      by_cases h2 : u + l.length ≤ MAX_TEXT_BYTES
      · rw [if_pos h2]
        have := ih (u + l.length + 1) (c + 1)
        simp only [List.length_cons]
        omega
      · rw [if_neg h2]
        simp

/-- C3 (spec-modelled): `read(key, path)` on a cached text file returns
content capped at 3,000,000 bytes and 50,000 lines; the content is the join of
a prefix of the file's lines (so truncation stops exactly at the end of the
last fully-included line); `truncated` is true exactly when a cap applied — in
particular for any file longer than 3,000,000 bytes, such as one of exactly
3,000,001 bytes — and `total_lines` reports the file's full line count. -/
theorem read_truncation_spec (c : Cache) (k p : String) (e : CacheEntry)
    (data : String)
    (hsafe : (isAbsolutePath p || hasTraversal p) = false)
    (he : cacheLookup c k = some e) (hd : e.files.lookup p = some data)
    (hb : isBinaryContent data = false) :
    readFile c k p = .ok (readFileData p data) ∧
    (readFileData p data).content.length ≤ MAX_TEXT_BYTES ∧
    (∃ taken rest, taken ++ rest = splitLinesL data.toList ∧
      (readFileData p data).content = String.mk (joinLinesL taken) ∧
      taken.length ≤ MAX_TEXT_LINES ∧
      ((readFileData p data).truncated = true ↔
        taken.length < (splitLinesL data.toList).length)) ∧
    (readFileData p data).total_lines = some (splitLinesL data.toList).length ∧
    (data.length > MAX_TEXT_BYTES → (readFileData p data).truncated = true) := by
  have hread : readFile c k p = .ok (readFileData p data) := by
    unfold readFile
    rw [if_neg (by simp [hsafe])]
    simp only [he, hd]
  have hfc : readFileData p data =
      ⟨String.mk (joinLinesL (takeLines (splitLinesL data.toList) 0 0)),
        decide ((takeLines (splitLinesL data.toList) 0 0).length <
          (splitLinesL data.toList).length),
        some (splitLinesL data.toList).length, languageFor p, false⟩ := by
    unfold readFileData
    rw [if_neg (by simp [hb])]
  have hcap : (joinLinesL (takeLines (splitLinesL data.toList) 0 0)).length ≤
      MAX_TEXT_BYTES := by
    rcases takeLines_bytes (splitLinesL data.toList) 0 0 with hle | hnil
    · omega
    · rw [hnil]
      simp [joinLinesL, MAX_TEXT_BYTES]
  refine ⟨hread, ?_, ?_, ?_, ?_⟩
  · simp only [hfc]
    exact hcap
  · obtain ⟨rest, hrest⟩ := takeLines_is_prefix (splitLinesL data.toList) 0 0
    refine ⟨takeLines (splitLinesL data.toList) 0 0, rest, hrest, by simp [hfc], ?_, ?_⟩
    · have := takeLines_count (splitLinesL data.toList) 0 0
      omega
    · simp [hfc]
  · simp [hfc]
  · intro hbig
    simp only [hfc, decide_eq_true_eq]
    obtain ⟨rest, hrest⟩ := takeLines_is_prefix (splitLinesL data.toList) 0 0
    by_contra hnotlt
    push_neg at hnotlt
    have hlen := congrArg List.length hrest
    simp only [List.length_append] at hlen
    have hrnil : rest = [] := List.length_eq_zero.mp (by omega)
    subst hrnil
    have heq : takeLines (splitLinesL data.toList) 0 0 = splitLinesL data.toList := by
      simpa using hrest
    rw [heq, joinLinesL_splitLinesL] at hcap
    have hdl : data.toList.length = data.length := rfl
    omega

/-- Witness for `read_truncation_spec` on a concrete one-file cache. -/
theorem read_truncation_spec_witness :
    readFile
      [("k", ⟨⟨"k", "o", "r", "main", "t0", none, "u"⟩, .mk "r" "" true none (some []),
        [("a.txt", "hello\nworld")]⟩)]
      "k" "a.txt" = .ok (readFileData "a.txt" "hello\nworld") :=
  (read_truncation_spec
    [("k", ⟨⟨"k", "o", "r", "main", "t0", none, "u"⟩, .mk "r" "" true none (some []),
      [("a.txt", "hello\nworld")]⟩)]
    "k" "a.txt"
    ⟨⟨"k", "o", "r", "main", "t0", none, "u"⟩, .mk "r" "" true none (some []),
      [("a.txt", "hello\nworld")]⟩
    "hello\nworld" (by decide) rfl rfl (by decide)).1

/-! ### Tree builder (modelled from spec section 4.4) -/

/-- Modelled from the spec: the extracted sandbox directory seen by the tree
builder — a named file with its raw bytes, or a named directory with its
entries. -/
inductive FsEntry : Type where
  | file (name : List Char) (data : String) : FsEntry
  | dir (name : List Char) (entries : List FsEntry) : FsEntry

/-- The name of a filesystem entry. -/
def fsName : FsEntry → List Char
  | .file n _ => n
  | .dir n _ => n

/-- Modelled from the spec: the fixed ignore set of the tree walk
(version-control directories, dependency/build caches, and the cache's own
metadata subfolder). -/
def ignoredNames : List (List Char) :=
  [".git".toList, ".svn".toList, "node_modules".toList, "target".toList,
   "dist".toList, "_meta".toList]

/-- The fixed, documented ordering policy: case-insensitive alphabetical by
name, directories and files interleaved. -/
def nodeLe (a b : FileNode) : Bool :=
  decide (jsToLower a.name ≤ jsToLower b.name)

/-- Insertion into a node list sorted by `nodeLe`. -/
def insertNode (n : FileNode) : List FileNode → List FileNode
  | [] => [n]
  | x :: xs => if nodeLe n x then n :: x :: xs else x :: insertNode n xs

/-- Insertion sort of built children by `nodeLe`. -/
def sortNodes : List FileNode → List FileNode
  | [] => []
  | n :: ns => insertNode n (sortNodes ns)

/-- The slash-joined path of a child named `n` under `parent`. -/
def childPath (parent n : List Char) : List Char :=
  if parent.isEmpty then n else parent ++ '/' :: n

mutual

/-- Modelled from the spec: one node of the produced tree.  Directories carry
an ordered, ignore-filtered children list and no size; files carry their byte
size and no children. -/
def buildNode (parent : List Char) : FsEntry → FileNode
  | .file n data =>
    .mk (String.mk n) (String.mk (childPath parent n)) false (some data.length) none
  | .dir n es =>
    .mk (String.mk n) (String.mk (childPath parent n)) true none
      (some (sortNodes (buildForest (childPath parent n) es)))

/-- The children built from a directory listing: ignored names are skipped
during the walk, the rest are built in turn (ordering is applied by
`sortNodes` at the parent). -/
def buildForest (parent : List Char) : List FsEntry → List FileNode
  | [] => []
  | e :: es =>
    if fsName e ∈ ignoredNames then buildForest parent es
    else buildNode parent e :: buildForest parent es

end

/-- Modelled from the spec: the root of the produced tree — the sandbox root
itself, named after the repository, with path `""`. -/
def buildRootTree (rootName : String) (fs : List FsEntry) : FileNode :=
  .mk rootName "" true none (some (sortNodes (buildForest [] fs)))

mutual

/-- The claim C6 invariant on one node and its subtree: every `is_dir` node
has a `children` list and every non-dir node has a `size`. -/
def invNode : FileNode → Bool
  | .mk _ _ d s c =>
    (if d then c.isSome else s.isSome) &&
      (match c with
       | some l => invForest l
       | none => true)

/-- The invariant on every node of a forest. -/
def invForest : List FileNode → Bool
  | [] => true
  | n :: ns => invNode n && invForest ns

end

/-! ### Filesystem reconstruction from extraction writes -/

/-- Inserting one written file (relative component path + data) into a
directory listing, creating intermediate directories. -/
def fsInsert : List FsEntry → List (List Char) → String → List FsEntry
  | fs, [], _ => fs
  | fs, [n], data => fs ++ [.file n data]
  | [], n :: rest, data => [.dir n (fsInsert [] rest data)]
  | .dir n' es :: fs', n :: rest, data =>
    if n' = n then .dir n' (fsInsert es rest data) :: fs'
    else .dir n' es :: fsInsert fs' (n :: rest) data
  | .file n' d :: fs', n :: rest, data =>
    .file n' d :: fsInsert fs' (n :: rest) data
termination_by fs path _ => (path.length, fs.length)

/-- Modelled from the spec: the sandbox content resulting from the extraction
writes. -/
def fsOfWrites (ws : List (List (List Char) × String)) : List FsEntry :=
  ws.foldl (fun fs w => fsInsert fs w.1 w.2) []

theorem mem_insertNode (n x : FileNode) :
    ∀ l, x ∈ insertNode n l ↔ x = n ∨ x ∈ l := by
  intro l
  induction l with
  | nil => simp [insertNode]
  | cons y ys ih =>
    simp only [insertNode]
    split
    · simp [List.mem_cons]
    · simp only [List.mem_cons, ih]
      tauto

theorem mem_sortNodes (x : FileNode) : ∀ l, x ∈ sortNodes l ↔ x ∈ l := by
  intro l
  induction l with
  | nil => simp [sortNodes]
  | cons y ys ih =>
    simp only [sortNodes, mem_insertNode, ih, List.mem_cons]

theorem invForest_iff_all :
    ∀ l : List FileNode, invForest l = true ↔ ∀ x ∈ l, invNode x = true := by
  intro l
  induction l with
  | nil => simp [invForest]
  | cons y ys ih =>
    simp only [invForest, Bool.and_eq_true, ih, List.mem_cons]
    constructor
    · rintro ⟨hy, hall⟩ x (rfl | hx)
      · exact hy
      · exact hall x hx
    · intro h
      exact ⟨h y (Or.inl rfl), fun x hx => h x (Or.inr hx)⟩

theorem invForest_sortNodes (l : List FileNode) (h : invForest l = true) :
    invForest (sortNodes l) = true := by
  rw [invForest_iff_all] at h ⊢
  intro x hx
  exact h x ((mem_sortNodes x l).mp hx)

mutual

theorem buildNode_inv (parent : List Char) (e : FsEntry) :
    invNode (buildNode parent e) = true := by
  match e with
  | .file n data =>
    simp [buildNode, invNode]
  | .dir n es =>
    have hf := buildForest_inv (childPath parent n) es
    simp only [buildNode, invNode, Option.isSome_some, Bool.true_and, if_true]
    exact invForest_sortNodes _ hf

theorem buildForest_inv (parent : List Char) (es : List FsEntry) :
    invForest (buildForest parent es) = true := by
  match es with
  | [] => simp [buildForest, invForest]
  | e :: rest =>
    have hn := buildNode_inv parent e
    have hr := buildForest_inv parent rest
    simp only [buildForest]
    split
    · exact hr
    · simp [invForest, hn, hr]

end

/-! ### Reference resolver, fetcher and pipeline (modelled from spec
sections 4.1, 4.2, 4.7) -/

/-- Modelled from the spec: the remote repository host, reduced to the
observations the pipeline makes of it — the default-branch lookup, the branch
snapshot download, and the clock used for timestamps. -/
structure Remote where
  defaultBranch : Except RepoError String
  fetchArchive : String → Except RepoError (List ArchiveEntry)
  now : String

/-- Strip a prefix from a character list, or `none`. -/
def stripPrefixL (pre s : List Char) : Option (List Char) :=
  if pre.isPrefixOf s then some (s.drop pre.length) else none

/-- Modelled from the spec: the resolver parses
`https://github.com/{owner}/{repo}` with an optional `/tree/{branch}` suffix;
with no branch it queries the remote's default branch; unparsable input fails
with `InvalidReference`. -/
def resolveReference (remote : Remote) (url : String) :
    Except RepoError (String × String × String) :=
  match stripPrefixL "https://github.com/".toList url.toList with
  | none => .error .InvalidReference
  | some rest =>
    let ownerCs := rest.takeWhile (fun c => c ≠ '/')
    match rest.dropWhile (fun c => c ≠ '/') with
    | [] => .error .InvalidReference
    | _ :: tail =>
      let repoCs := tail.takeWhile (fun c => c ≠ '/')
      let after := tail.dropWhile (fun c => c ≠ '/')
      if ownerCs.isEmpty || repoCs.isEmpty then .error .InvalidReference
      else
        match after with
        | [] =>
          match remote.defaultBranch with
          | .ok b => .ok (String.mk ownerCs, String.mk repoCs, b)
          | .error err => .error err
        | _ :: brtail =>
          match stripPrefixL "tree/".toList brtail with
          | some br =>
            if br.isEmpty then .error .InvalidReference
            else .ok (String.mk ownerCs, String.mk repoCs, String.mk br)
          | none => .error .InvalidReference

/-- Modelled from the spec: the deterministic, filesystem-safe key derived
from (owner, repo). -/
def repoKeyOf (owner repo : String) : String :=
  owner ++ "_" ++ repo

/-- Joining relative path components with slashes. -/
def joinSlash : List (List Char) → List Char
  | [] => []
  | [c] => c
  | c :: cs => c ++ '/' :: joinSlash cs

/-- Modelled from the spec: fetch the branch snapshot, extract it into a fresh
sandbox, and build the tree — the shared tail of the import and update
pipelines.  Returns the built tree and the extracted files keyed by relative
path. -/
def fetchAndBuild (remote : Remote) (repo branch : String) :
    Except RepoError (FileNode × List (String × String)) :=
  match remote.fetchArchive branch with
  | .error e => .error e
  | .ok ar =>
    match extractArchive ar with
    | .error e => .error e
    | .ok writes =>
      .ok (buildRootTree repo (fsOfWrites writes),
        writes.map (fun w => (String.mk (joinSlash w.1), w.2)))

/-- Modelled from the spec: `import(reference)` — resolve, fetch, extract,
build, then `put` atomically; `last_opened_at` starts absent (the repo list
falls back to `imported_at`). -/
def importRepo (remote : Remote) (url : String) (c : Cache) :
    Except RepoError (String × Cache × RepoInfo × FileNode) :=
  match resolveReference remote url with
  | .error e => .error e
  | .ok (owner, repo, branch) =>
    match fetchAndBuild remote repo branch with
    | .error e => .error e
    | .ok (tree, files) =>
      let key := repoKeyOf owner repo
      let info : RepoInfo :=
        ⟨key, owner, repo, branch, remote.now, none,
          "https://github.com/" ++ owner ++ "/" ++ repo⟩
      .ok (key, cachePut c key ⟨info, tree, files⟩, info, tree)

/-- Modelled from the spec: `update(key)` — re-run the pipeline against the
existing entry's owner/repo and atomically replace info, tree and content on
full success only; any stage failure surfaces its error. -/
def updateRepo (remote : Remote) (k : String) (c : Cache) :
    Except RepoError Cache :=
  match cacheLookup c k with
  | none => .error .NotCached
  | some e =>
    match remote.defaultBranch with
    | .error err => .error err
    | .ok branch =>
      match fetchAndBuild remote e.info.repo branch with
      | .error err => .error err
      | .ok (tree, files) =>
        .ok (cachePut c k
          ⟨{ e.info with branch := branch, imported_at := remote.now }, tree, files⟩)

/-- The operations of the cache subsystem's external interface
(`src/api.ts`). -/
inductive CacheOp where
  | opImport (url : String)
  | opUpdate (key : String)
  | opDelete (key : String)
  | opTouch (key : String) (t : String)
  | opRead (key : String) (path : String)

/-- The observable outcome of one operation. -/
inductive OpResult where
  | done
  | doneContent (fc : FileContent)
  | doneImport (key : String)
  | failed (e : RepoError)
deriving Repr, DecidableEq

/-- Modelled from the spec: the state transition of each operation.  A
failing import or update leaves the cache untouched and surfaces the error;
delete and touch always succeed; read never changes the state. -/
def applyOp (remote : Remote) (st : Cache) : CacheOp → Cache × OpResult
  | .opImport url =>
    match importRepo remote url st with
    | .ok (k, st', _, _) => (st', .doneImport k)
    | .error e => (st, .failed e)
  | .opUpdate k =>
    match updateRepo remote k st with
    | .ok st' => (st', .done)
    | .error e => (st, .failed e)
  | .opDelete k => (cacheDelete st k, .done)
  | .opTouch k t => (cacheTouch st k t, .done)
  | .opRead k p =>
    (st, match readFile st k p with
         | .ok fc => .doneContent fc
         | .error e => .failed e)

/-- C2 (spec-modelled): if `update(key)` fails at any stage — resolve, fetch,
extract or build — the cache state is left byte-for-byte unchanged and the
error is surfaced; in particular a subsequent `get_tree(key)` returns the
pre-update tree and every `read` the pre-update content.  No partial write is
ever committed because `put` only runs after full pipeline success. -/
theorem update_failure_spec (remote : Remote) (st : Cache) (k : String)
    (e : RepoError) (h : (applyOp remote st (.opUpdate k)).2 = .failed e) :
    (applyOp remote st (.opUpdate k)).1 = st ∧
    getTree (applyOp remote st (.opUpdate k)).1 k = getTree st k ∧
    (∀ p, readFile (applyOp remote st (.opUpdate k)).1 k p = readFile st k p) := by
  rcases hu : updateRepo remote k st with err | st'
  · simp [applyOp, hu]
  · simp only [applyOp, hu] at h
    cases h

/-- Witness for `update_failure_spec`: an update whose fetch fails with a
simulated network error leaves the one-entry cache unchanged. -/
theorem update_failure_spec_witness :
    (applyOp
      ⟨.ok "main", fun _ => .error .UpstreamUnavailable, "t1"⟩
      [("o_r", ⟨⟨"o_r", "o", "r", "main", "t0", none, "u"⟩,
        .mk "r" "" true none (some []), [("a", "x")]⟩)]
      (.opUpdate "o_r")).1
    = [("o_r", ⟨⟨"o_r", "o", "r", "main", "t0", none, "u"⟩,
        .mk "r" "" true none (some []), [("a", "x")]⟩)] :=
  (update_failure_spec
    ⟨.ok "main", fun _ => .error .UpstreamUnavailable, "t1"⟩
    [("o_r", ⟨⟨"o_r", "o", "r", "main", "t0", none, "u"⟩,
      .mk "r" "" true none (some []), [("a", "x")]⟩)]
    "o_r" .UpstreamUnavailable rfl).1

theorem lookup_cacheDelete (st : Cache) (k : String) :
    cacheLookup (cacheDelete st k) k = none := by
  induction st with
  | nil => rfl
  | cons kv rest ih =>
    simp only [cacheDelete, List.filter_cons]
    split
    · rename_i hkeep
      have hne : kv.1 ≠ k := of_decide_eq_true hkeep
      simp only [cacheLookup, if_neg hne]
      exact ih
    · exact ih

theorem cacheDelete_idem (st : Cache) (k : String) :
    cacheDelete (cacheDelete st k) k = cacheDelete st k := by
  induction st with
  | nil => rfl
  | cons kv rest ih =>
    simp only [cacheDelete, List.filter_cons]
    split
    · rename_i hkeep
      simp only [cacheDelete, List.filter_cons, hkeep, if_pos]
      simp only [cacheDelete] at ih
      rw [ih]
    · simp only [cacheDelete] at ih ⊢
      exact ih

/-- C4 (spec-modelled): `delete(key)` removes the entry wholesale — a
subsequent `get_tree(key)` fails with `NotCached` — and deleting the same key
a second time is a no-op that succeeds (idempotent). -/
theorem delete_spec (remote : Remote) (st : Cache) (k : String) :
    getTree (applyOp remote st (.opDelete k)).1 k = .error .NotCached ∧
    cacheLookup (applyOp remote st (.opDelete k)).1 k = none ∧
    (applyOp remote (applyOp remote st (.opDelete k)).1 (.opDelete k)).1
      = (applyOp remote st (.opDelete k)).1 ∧
    (applyOp remote st (.opDelete k)).2 = .done ∧
    (applyOp remote (applyOp remote st (.opDelete k)).1 (.opDelete k)).2 = .done := by
  refine ⟨?_, ?_, ?_, rfl, rfl⟩
  · show getTree (cacheDelete st k) k = .error .NotCached
    unfold getTree
    rw [lookup_cacheDelete]
  · exact lookup_cacheDelete st k
  · exact cacheDelete_idem st k

/-- C5 (spec-modelled): `read(key, path)` is idempotent and side-effect-free:
it never changes the cache state, and two consecutive reads with no
intervening mutation produce the identical outcome (the same `FileContent`,
field for field, or the same error). -/
theorem read_pure_spec (remote : Remote) (st : Cache) (k p : String) :
    (applyOp remote st (.opRead k p)).1 = st ∧
    (applyOp remote (applyOp remote st (.opRead k p)).1 (.opRead k p)).2
      = (applyOp remote st (.opRead k p)).2 ∧
    (applyOp remote (applyOp remote st (.opRead k p)).1 (.opRead k p)).1 = st :=
  ⟨rfl, rfl, rfl⟩

theorem lookup_cacheDelete_ne (st : Cache) (k0 k : String) (hne : k ≠ k0) :
    cacheLookup (cacheDelete st k0) k = cacheLookup st k := by
  induction st with
  | nil => rfl
  | cons kv rest ih =>
    simp only [cacheDelete, List.filter_cons]
    split
    · simp only [cacheLookup]
      split
      · rfl
      · simpa [cacheDelete] using ih
    · rename_i hdrop
      have hkv : kv.1 = k0 := by
        by_contra hc
        simp [hc] at hdrop
      have : kv.1 ≠ k := by
        rw [hkv]
        exact fun hh => hne hh.symm
      simp only [cacheLookup, if_neg this]
      simpa [cacheDelete] using ih

theorem lookup_cachePut (st : Cache) (k0 k : String) (e0 : CacheEntry) :
    cacheLookup (cachePut st k0 e0) k =
      if k0 = k then some e0 else cacheLookup st k := by
  simp only [cachePut, cacheLookup]
  split
  · rfl
  · rename_i hne
    exact lookup_cacheDelete_ne st k0 k (fun hh => hne hh.symm)

/-- Every tree stored in the cache satisfies the C6 invariant. -/
def cacheInv (st : Cache) : Prop :=
  ∀ k e, cacheLookup st k = some e → invNode e.tree = true

/-- The builder's root tree always satisfies the C6 invariant. -/
theorem buildRootTree_inv (rootName : String) (fs : List FsEntry) :
    invNode (buildRootTree rootName fs) = true := by
  simp only [buildRootTree, invNode, Option.isSome_some, if_true, Bool.true_and]
  exact invForest_sortNodes _ (buildForest_inv [] fs)

/-- Any tree produced by the fetch-extract-build tail of the pipeline
satisfies the C6 invariant. -/
theorem fetchAndBuild_tree_inv (remote : Remote) (repo branch : String)
    (btree : FileNode) (files : List (String × String))
    (h : fetchAndBuild remote repo branch = .ok (btree, files)) :
    invNode btree = true := by
  unfold fetchAndBuild at h
  rcases hfa : remote.fetchArchive branch with e2 | ar
  · rw [hfa] at h
    cases h
  · simp only [hfa] at h
    rcases hex : extractArchive ar with e2 | writes
    · rw [hex] at h
      cases h
    · simp only [hex, Except.ok.injEq, Prod.mk.injEq] at h
      obtain ⟨h1, h2⟩ := h
      rw [← h1]
      exact buildRootTree_inv repo (fsOfWrites writes)

/-- C6 (spec-modelled tree builder, embedded `FileNode` type): every tree the
system produces satisfies the structural invariant — every `is_dir` node
carries a `children` list (possibly empty) and every non-dir node carries a
`size`.  The builder always outputs such trees; import and update only store
such trees; `get_tree` only returns stored trees. -/
theorem tree_invariant_spec :
    (∀ (rootName : String) (fs : List FsEntry),
      invNode (buildRootTree rootName fs) = true) ∧
    (∀ remote url st k st' info tree,
      importRepo remote url st = .ok (k, st', info, tree) →
      invNode tree = true ∧ (cacheInv st → cacheInv st')) ∧
    (∀ remote k st st', updateRepo remote k st = .ok st' →
      cacheInv st → cacheInv st') ∧
    (∀ st k t, cacheInv st → getTree st k = .ok t → invNode t = true) := by
  have hputInv : ∀ st k0 (e0 : CacheEntry), invNode e0.tree = true →
      cacheInv st → cacheInv (cachePut st k0 e0) := by
    intro st k0 e0 he0 hst k e hlook
    rw [lookup_cachePut] at hlook
    split at hlook
    · rw [Option.some.injEq] at hlook
      subst hlook
      exact he0
    · exact hst k e hlook
  refine ⟨buildRootTree_inv, ?_, ?_, ?_⟩
  · intro remote url st k st' info tree h
    unfold importRepo at h
    rcases hres : resolveReference remote url with err | ⟨owner, repo, branch⟩
    · rw [hres] at h
      cases h
    · simp only [hres] at h
      rcases hfb : fetchAndBuild remote repo branch with err | ⟨btree, files⟩
      · rw [hfb] at h
        cases h
      · simp only [hfb, Except.ok.injEq, Prod.mk.injEq] at h
        obtain ⟨hk, hst', hinfo, htree⟩ := h
        have hbtree : invNode btree = true :=
          fetchAndBuild_tree_inv remote repo branch btree files hfb
        constructor
        · rw [← htree]
          exact hbtree
        · intro hinv
          rw [← hst']
          exact hputInv st _ _ hbtree hinv
  · intro remote k st st' h hinv
    unfold updateRepo at h
    rcases hl : cacheLookup st k with _ | e
    · rw [hl] at h
      cases h
    · simp only [hl] at h
      rcases hdb : remote.defaultBranch with err | branch
      · rw [hdb] at h
        cases h
      · simp only [hdb] at h
        rcases hfb : fetchAndBuild remote e.info.repo branch with err | ⟨btree, files⟩
        · rw [hfb] at h
          cases h
        · simp only [hfb, Except.ok.injEq] at h
          rw [← h]
          exact hputInv st _ _
            (fetchAndBuild_tree_inv remote e.info.repo branch btree files hfb) hinv
  · intro st k t hinv h
    unfold getTree at h
    rcases hl : cacheLookup st k with _ | e
    · rw [hl] at h
      cases h
    · simp only [hl, Except.ok.injEq] at h
      rw [← h]
      exact hinv k e hl

/-- Witness for `tree_invariant_spec`: `get_tree` on a concrete valid cache
returns a tree satisfying the invariant. -/
theorem tree_invariant_spec_witness :
    invNode (.mk "r" "" true none (some [])) = true :=
  tree_invariant_spec.2.2.2
    [("k", ⟨⟨"k", "o", "r", "main", "t0", none, "u"⟩,
      .mk "r" "" true none (some []), []⟩)]
    "k" (.mk "r" "" true none (some []))
    (by
      intro k' e' h'
      simp only [cacheLookup] at h'
      split at h'
      · rw [Option.some.injEq] at h'
        subst h'
        decide
      · cases h')
    rfl

/-! ### Opening a cached repository (claim C7) -/

/-- The backend IPC calls named in `src/api.ts`, as far as
`handleRepoSelect` uses them. -/
inductive FrontendCall where
  | callGetRepoTree (key : String)
  | callUpdateRepoLastOpened (key : String)
  | callListRecentRepos
deriving Repr, DecidableEq

/-- Embedded from `src/App.tsx` lines 837-851 (`handleRepoSelect`): selecting
a repository loads its tree, then calls `update_repo_last_opened`, then
refreshes the recent list. -/
def handleRepoSelectCalls (k : String) : List FrontendCall :=
  [.callGetRepoTree k, .callUpdateRepoLastOpened k, .callListRecentRepos]

theorem lookup_cacheTouch_eq (k t : String) :
    ∀ st : Cache, cacheLookup (cacheTouch st k t) k =
      Option.map (fun e => { e with info := { e.info with last_opened_at := some t } })
        (cacheLookup st k) := by
  intro st
  induction st with
  | nil => rfl
  | cons kv rest ih =>
    simp only [cacheTouch, List.map_cons]
    by_cases hk : kv.1 = k
    · simp only [if_pos hk, cacheLookup, hk, if_pos rfl]
      simp
    · simp only [if_neg hk, cacheLookup, if_neg hk]
      simpa [cacheTouch] using ih

theorem lookup_cacheTouch_ne (k t k' : String) (hne : k' ≠ k) :
    ∀ st : Cache, cacheLookup (cacheTouch st k t) k' = cacheLookup st k' := by
  intro st
  induction st with
  | nil => rfl
  | cons kv rest ih =>
    simp only [cacheTouch, List.map_cons]
    by_cases hk : kv.1 = k
    · have : kv.1 ≠ k' := by
        rw [hk]
        exact fun hh => hne hh.symm
      simp only [if_pos hk, cacheLookup, if_neg this]
      simpa [cacheTouch] using ih
    · simp only [if_neg hk, cacheLookup]
      by_cases hkk : kv.1 = k'
      · simp [hkk]
      · simp only [if_neg hkk]
        simpa [cacheTouch] using ih

/-- C7 (amended, spec-modelled `touch`): `RepoInfo.last_opened_at` is an
optional field (the repo list falls back to `imported_at` when it is absent);
selecting a cached repository triggers `update_repo_last_opened`, and that
touch rewrites only `last_opened_at` of the entry's info, leaving the tree,
every file's content, and every other cache entry unchanged. -/
theorem touch_spec (st : Cache) (k t : String) (e : CacheEntry)
    (he : cacheLookup st k = some e) :
    cacheLookup (cacheTouch st k t) k =
      some ⟨{ e.info with last_opened_at := some t }, e.tree, e.files⟩ ∧
    getTree (cacheTouch st k t) k = getTree st k ∧
    (∀ p, readFile (cacheTouch st k t) k p = readFile st k p) ∧
    (∀ k', k' ≠ k → cacheLookup (cacheTouch st k t) k' = cacheLookup st k') ∧
    FrontendCall.callUpdateRepoLastOpened k ∈ handleRepoSelectCalls k ∧
    (∀ r : RepoInfo, r.last_opened_at = none → repoDisplayTime r = r.imported_at) := by
  have hl := lookup_cacheTouch_eq k t st
  rw [he] at hl
  simp only [Option.map] at hl
  refine ⟨hl, ?_, ?_, ?_, ?_, ?_⟩
  · unfold getTree
    rw [hl, he]
  · intro p
    unfold readFile
    split
    · rfl
    · rw [hl, he]
  · intro k' hk'
    exact lookup_cacheTouch_ne k t k' hk' st
  · simp [handleRepoSelectCalls]
  · intro r hr
    unfold repoDisplayTime
    rw [hr]

/-- Witness for `touch_spec` on a concrete one-entry cache. -/
theorem touch_spec_witness :
    cacheLookup
      (cacheTouch [("k", ⟨⟨"k", "o", "r", "main", "t0", none, "u"⟩,
        .mk "r" "" true none (some []), [("a", "x")]⟩)] "k" "t1") "k" =
      some ⟨⟨"k", "o", "r", "main", "t0", some "t1", "u"⟩,
        .mk "r" "" true none (some []), [("a", "x")]⟩ :=
  (touch_spec [("k", ⟨⟨"k", "o", "r", "main", "t0", none, "u"⟩,
      .mk "r" "" true none (some []), [("a", "x")]⟩)] "k" "t1"
    ⟨⟨"k", "o", "r", "main", "t0", none, "u"⟩,
      .mk "r" "" true none (some []), [("a", "x")]⟩ rfl).1

/-- C7 counterexample: a `RepoInfo` record need not carry `last_opened_at` —
the field is optional in the frontend type and the repo list displays
`imported_at` in that case; a fresh import stores `none` there. -/
theorem repoInfo_counterexample :
    ¬ (∀ r : RepoInfo, r.last_opened_at.isSome = true) ∧
    repoDisplayTime ⟨"k", "o", "r", "main", "2024-01-01", none, "u"⟩ = "2024-01-01" ∧
    (importRepo ⟨.ok "main", fun _ => .ok [], "t0"⟩ "https://github.com/o/r" []).map
      (fun q => q.2.2.1.last_opened_at) = .ok none := by
  refine ⟨?_, rfl, rfl⟩
  intro h
  have := h ⟨"k", "o", "r", "main", "2024-01-01", none, "u"⟩
  simp at this

/-! ### The owner/repo shorthand (claim C8) -/

/-- A JavaScript `\w` or `-` character (the owner part's alphabet in the
regex of `isGitHubUrl`). -/
def wordDashChar (c : Char) : Bool :=
  c.isAlphanum || c = '_' || c = '-'

/-- A JavaScript `\w`, `.` or `-` character (the repo part's alphabet). -/
def wordDotDashChar (c : Char) : Bool :=
  c.isAlphanum || c = '_' || c = '.' || c = '-'

/-- Embedded from `src/App.tsx` line 80: the shorthand test
`/^[\w-]+\/[\w.-]+$/.test(trimmed)`, written out — the string is
`owner/repo` with a nonempty slash-free owner over `wordDashChar` and a
nonempty slash-free repo over `wordDotDashChar`. -/
def ownerRepoPattern (s : String) : Bool :=
  match s.toList.dropWhile (fun c => c ≠ '/') with
  | [] => false
  | _ :: b =>
    !(s.toList.takeWhile (fun c => c ≠ '/')).isEmpty &&
      (s.toList.takeWhile (fun c => c ≠ '/')).all wordDashChar &&
      !b.isEmpty && b.all wordDotDashChar

/-- JavaScript `String.prototype.startsWith` on character lists. -/
def jsStartsWith (s pre : String) : Bool :=
  pre.toList.isPrefixOf s.toList

/-- Embedded from `src/App.tsx` lines 74-82 (`isGitHubUrl`): the trimmed,
lowercased input is a GitHub reference when it starts with a github.com URL
prefix or matches the `owner/repo` shorthand pattern. -/
def isGitHubUrl (input : String) : Bool :=
  let t := jsToLower (jsTrim input)
  jsStartsWith t "https://github.com/" || jsStartsWith t "http://github.com/" ||
    jsStartsWith t "github.com/" || ownerRepoPattern t

/-- Embedded from `src/App.tsx` line 757 (`handleSubmit`):
`input.includes("github.com") ? input : "https://github.com/" + input`. -/
def rewriteUrl (input : String) : String :=
  if jsIncludes input "github.com" then input else "https://github.com/" ++ input

theorem takeWhile_append_stop (p : Char → Bool) (a : List Char)
    (ha : ∀ c ∈ a, p c = true) (x : Char) (hx : p x = false) (b : List Char) :
    (a ++ x :: b).takeWhile p = a ∧ (a ++ x :: b).dropWhile p = x :: b := by
  induction a with
  | nil =>
    simp [List.takeWhile, List.dropWhile, hx]
  | cons c cs ih =>
    have hc : p c = true := ha c (List.mem_cons_self c cs)
    have hcs : ∀ y ∈ cs, p y = true := fun y hy => ha y (List.mem_cons_of_mem c hy)
    obtain ⟨ht, hd⟩ := ih hcs
    constructor
    · simp only [List.cons_append, List.takeWhile_cons, hc, if_true]
      rw [ht]
    · simp only [List.cons_append, List.dropWhile_cons, hc, if_true]
      rw [hd]

theorem takeWhile_all_eq (p : Char → Bool) (l : List Char)
    (h : ∀ c ∈ l, p c = true) :
    l.takeWhile p = l ∧ l.dropWhile p = [] := by
  induction l with
  | nil => simp
  | cons c cs ih =>
    have hc : p c = true := h c (List.mem_cons_self c cs)
    have hcs : ∀ y ∈ cs, p y = true := fun y hy => h y (List.mem_cons_of_mem c hy)
    obtain ⟨ht, hd⟩ := ih hcs
    constructor
    · simp only [List.takeWhile_cons, hc, if_true]
      rw [ht]
    · simp only [List.dropWhile_cons, hc, if_true]
      exact hd

theorem isPrefixOf_append_left (l1 l2 : List Char) :
    l1.isPrefixOf (l1 ++ l2) = true := by
  induction l1 with
  | nil => simp
  | cons c cs ih => simp [List.isPrefixOf, ih]

theorem head_dropWhile_false (p : Char → Bool) :
    ∀ (l : List Char) (x : Char) (b : List Char),
      l.dropWhile p = x :: b → p x = false := by
  intro l
  induction l with
  | nil =>
    intro x b h
    cases h
  | cons c cs ih =>
    intro x b h
    simp only [List.dropWhile_cons] at h
    split at h
    · exact ih x b h
    · rename_i hpc
      rw [List.cons.injEq] at h
      rw [← h.1]
      exact Bool.not_eq_true _ ▸ (by simpa using hpc)

theorem wordDashChar_ne_slash (c : Char) (h : wordDashChar c = true) :
    (decide (c ≠ '/')) = true := by
  rw [decide_eq_true_eq]
  intro hc
  subst hc
  exact absurd h (by decide)

theorem wordDotDashChar_ne_slash (c : Char) (h : wordDotDashChar c = true) :
    (decide (c ≠ '/')) = true := by
  rw [decide_eq_true_eq]
  intro hc
  subst hc
  exact absurd h (by decide)

/-- C8 counterexample: `"foo/github.com"` is recognized as an `owner/repo`
shorthand by `isGitHubUrl`, yet `handleSubmit` does not rewrite it to
`https://github.com/foo/github.com` — the `includes("github.com")` test fires
on the repo name itself and the raw shorthand is passed to import. -/
theorem shorthand_rewrite_counterexample :
    isGitHubUrl "foo/github.com" = true ∧
    ownerRepoPattern "foo/github.com" = true ∧
    rewriteUrl "foo/github.com" = "foo/github.com" ∧
    rewriteUrl "foo/github.com" ≠ "https://github.com/foo/github.com" := by
  refine ⟨by decide, by decide, by decide, by decide⟩

/-- C8 (amended): an `owner/repo` shorthand (no surrounding whitespace) that
does not contain the substring `"github.com"` is recognized by `isGitHubUrl`,
rewritten by `handleSubmit` to `https://github.com/owner/repo`, and importing
that URL resolves the reference with the remote's reported default branch, so
a successful import yields `RepoInfo.branch` equal to the default branch. -/
theorem shorthand_import_spec (s : String)
    (hTrim : jsTrim s = s)
    (hPat : ownerRepoPattern s = true)
    (hPatLow : ownerRepoPattern (jsToLower s) = true)
    (hNoGh : jsIncludes s "github.com" = false) :
    isGitHubUrl s = true ∧
    rewriteUrl s = "https://github.com/" ++ s ∧
    (∀ (remote : Remote) (bb : String), remote.defaultBranch = .ok bb →
      ∃ owner repo, resolveReference remote (rewriteUrl s) = .ok (owner, repo, bb)) ∧
    (∀ remote st k st' info tree,
      importRepo remote (rewriteUrl s) st = .ok (k, st', info, tree) →
      remote.defaultBranch = .ok info.branch) := by
  have hrw : rewriteUrl s = "https://github.com/" ++ s := by
    unfold rewriteUrl
    rw [if_neg (by simp [hNoGh])]
  have hgh : isGitHubUrl s = true := by
    unfold isGitHubUrl
    rw [hTrim]
    simp [hPatLow]
  rcases hsplit : s.toList.dropWhile (fun c => decide (c ≠ '/')) with _ | ⟨x, b⟩
  · unfold ownerRepoPattern at hPat
    rw [hsplit] at hPat
    cases hPat
  · unfold ownerRepoPattern at hPat
    rw [hsplit] at hPat
    simp only [Bool.and_eq_true] at hPat
    obtain ⟨⟨⟨hane, hawd⟩, hbne⟩, hbwd⟩ := hPat
    have hx : x = '/' := by
      have := head_dropWhile_false (fun c => decide (c ≠ '/')) s.toList x b hsplit
      simpa using this
    subst hx
    have hs : s.toList = s.toList.takeWhile (fun c => decide (c ≠ '/')) ++ '/' :: b := by
      conv_lhs => rw [← List.takeWhile_append_dropWhile (fun c => decide (c ≠ '/')) s.toList]
      rw [hsplit]
    generalize ha : s.toList.takeWhile (fun c => decide (c ≠ '/')) = a at hs hane hawd
    have hawd' : ∀ c ∈ a, (decide (c ≠ '/')) = true := by
      intro c hc
      exact wordDashChar_ne_slash c (by
        rw [List.all_eq_true] at hawd
        exact hawd c hc)
    have hbwd' : ∀ c ∈ b, (decide (c ≠ '/')) = true := by
      intro c hc
      exact wordDotDashChar_ne_slash c (by
        rw [List.all_eq_true] at hbwd
        exact hbwd c hc)
    have hurl : ("https://github.com/" ++ s).toList =
        "https://github.com/".toList ++ s.toList := by
      show ("https://github.com/" ++ s).data = _
      exact String.data_append _ _
    have hstrip : stripPrefixL "https://github.com/".toList
        ("https://github.com/" ++ s).toList = some s.toList := by
      unfold stripPrefixL
      rw [hurl]
      rw [if_pos (isPrefixOf_append_left _ _)]
      rw [List.drop_left]
    obtain ⟨htka, hdra⟩ :=
      takeWhile_append_stop (fun c => decide (c ≠ '/')) a hawd' '/' (by decide) b
    obtain ⟨htkb, hdrb⟩ := takeWhile_all_eq (fun c => decide (c ≠ '/')) b hbwd'
    have hae : a.isEmpty = false := by
      simpa using hane
    have hbe : b.isEmpty = false := by
      simpa using hbne
    have hchar : ∀ remote : Remote, resolveReference remote (rewriteUrl s) =
        (match remote.defaultBranch with
         | .ok bb => .ok (String.mk a, String.mk b, bb)
         | .error err => .error err) := by
      intro remote
      rw [hrw]
      unfold resolveReference
      simp only [hstrip, hs, htka, hdra, htkb, hdrb, hae, hbe, Bool.or_self,
        Bool.false_eq_true, if_false]
    refine ⟨hgh, hrw, ?_, ?_⟩
    · intro remote bb hdb
      refine ⟨String.mk a, String.mk b, ?_⟩
      rw [hchar remote, hdb]
    · intro remote st k st' info tree h
      unfold importRepo at h
      rcases hdb : remote.defaultBranch with err | bb
      · rw [hchar remote] at h
        simp only [hdb] at h
        cases h
      · rw [hchar remote] at h
        simp only [hdb] at h
        rcases hfb : fetchAndBuild remote (String.mk b) bb with err | ⟨btree, files⟩
        · simp only [hfb] at h
          cases h
        · simp only [hfb, Except.ok.injEq, Prod.mk.injEq] at h
          obtain ⟨hk, hst', hinfo, htree⟩ := h
          rw [← hinfo]

/-- Witness for `shorthand_import_spec` at the shorthand `facebook/react`. -/
theorem shorthand_import_spec_witness :
    rewriteUrl "facebook/react" = "https://github.com/facebook/react" :=
  (shorthand_import_spec "facebook/react" (by decide) (by decide) (by decide)
    (by decide)).2.1

end RepoRead
